import Mathlib

/-
Verification of the quarterly-estimates pipeline loader
(zipline/pipeline/loaders/quarter_estimates.py).

The development shallowly embeds the loader: pandas frames become lists of
named columns or lists of rows, timestamps and dates become integers,
NaN / NaT cells become explicit constructors of a cell type, and raised
exceptions become `Except` errors.  Definitions follow the source file
line by line; the two helpers that live elsewhere in the repository
(`last_in_date_group` and `ffill_across_cols`) are modelled from the spec
and marked as such.
-/

set_option maxHeartbeats 1000000

namespace QuarterEstimates

/-- Cell of an event table / snapshot table: a missing timestamp (NaT),
a missing float (NaN), or an actual numeric value (timestamps are modelled
as integers). -/
inductive Val where
  | NaT : Val
  | NaN : Val
  | num : Int → Val
deriving DecidableEq, Repr

/-- The two storage dtypes distinguished by `get_adjustments`
(`column.dtype == datetime64ns_dtype` versus everything else, which the
source treats as float64). -/
inductive Dtype where
  | datetime64ns : Dtype
  | float64 : Dtype
deriving DecidableEq, Repr

/-- `notnull` on a cell: only an actual value is non-null. -/
def Val.notnull : Val → Bool
  | .num _ => true
  | _ => false

-- Column-name constants.  The five metadata names come from
-- zipline.pipeline.common (outside src/); their exact spellings are
-- irrelevant to the claims, only their identities matter.
def TS_FIELD_NAME : String := "timestamp"

def SID_FIELD_NAME : String := "sid"

def EVENT_DATE_FIELD_NAME : String := "event_date"

def FISCAL_QUARTER_FIELD_NAME : String := "fiscal_quarter"

def FISCAL_YEAR_FIELD_NAME : String := "fiscal_year"

def NORMALIZED_QUARTERS : String := "normalized_quarters"

def SHIFTED_NORMALIZED_QTRS : String := "shifted_normalized_quarters"

/-- `normalize_quarters(years, quarters) = years * 4 + quarters - 1`
(source line 36-37), on a single pair of values. -/
def normalize_quarters (years quarters : Int) : Int :=
  years * 4 + quarters - 1

/-- `split_normalized_quarters` (source line 40-43):
`years = normalized_quarters // 4`, `quarters = normalized_quarters % 4`,
returning `(years, quarters + 1)`.  Python `//` and `%` are floor division
and the matching modulus, i.e. `Int.fdiv` / `Int.fmod`. -/
def split_normalized_quarters (normalized_quarters : Int) : Int × Int :=
  (normalized_quarters.fdiv 4, normalized_quarters.fmod 4 + 1)

/-- Elementwise `normalize_quarters` on cells, as applied to the
fiscal-year and fiscal-quarter columns; pandas arithmetic on a null cell
yields a null. -/
def valNormalizeQuarters : Val → Val → Val
  | .num y, .num q => .num (normalize_quarters y q)
  | _, _ => .NaN

/-- A pandas DataFrame, modelled as an ordered list of named columns. -/
structure Frame where
  cols : List (String × List Val)
deriving DecidableEq, Repr

/-- `frame[name]`, as an `Option`. -/
def Frame.getCol (f : Frame) (name : String) : Option (List Val) :=
  (f.cols.find? (fun p => p.1 = name)).map (·.2)

/-- `frame[name] = vals`: overwrites the column in place when present
(keeping column order), appends it otherwise — pandas `__setitem__`. -/
def Frame.setCol (f : Frame) (name : String) (vals : List Val) : Frame :=
  if f.cols.any (fun p => p.1 = name) then
    ⟨f.cols.map (fun p => if p.1 = name then (name, vals) else p)⟩
  else
    ⟨f.cols ++ [(name, vals)]⟩

/-- Insertion sort of a list of strings (Python `sorted` on strings). -/
def sortStrings (l : List String) : List String :=
  List.insertionSort (· ≤ ·) l

/-- `required_estimates_fields(columns)` (source line 46-62): the five
metadata names united with every physical column name the field map's
values mention (`viewvalues(columns)`).  The result is a Python set; we
keep a duplicate-free list. -/
def required_estimates_fields (columns : List (String × String)) : List String :=
  ([TS_FIELD_NAME, SID_FIELD_NAME, EVENT_DATE_FIELD_NAME,
    FISCAL_QUARTER_FIELD_NAME, FISCAL_YEAR_FIELD_NAME] ++
      columns.map (·.2)).dedup

/-- Errors raised by the loader.  `schemaError` is the construction-time
failure (raised as a `ValueError` in the source, named `SchemaError` by the
spec); it carries the sorted missing / received / required column lists
that the source interpolates into its message.  `invalidParameter` is the
`ValueError` of `load_adjusted_array`. -/
inductive LoaderError where
  | schemaError (missing received required : List String) : LoaderError
  | invalidParameter (msg : String) : LoaderError
deriving DecidableEq, Repr

/-- The `missing = required - received` set of `validate_column_specs`
(source line 71-73), as a duplicate-free list. -/
def requiredMissing (eventsCols : List String)
    (columns : List (String × String)) : List String :=
  (required_estimates_fields columns).filter
    (fun c => ¬ c ∈ eventsCols.dedup)

/-- `validate_column_specs(events, columns)` (source line 65-83):
`missing = required - set(events.columns)`; a nonempty `missing` raises
with `sorted(missing)`, `sorted(received)`, `sorted(required)` in the
message. -/
def validate_column_specs (eventsCols : List String)
    (columns : List (String × String)) : Except LoaderError Unit :=
  if requiredMissing eventsCols columns ≠ [] then
    .error (.schemaError (sortStrings (requiredMissing eventsCols columns))
      (sortStrings eventsCols.dedup)
      (sortStrings (required_estimates_fields columns)))
  else
    .ok ()

/-- Keep the frame rows whose `event_date`, `fiscal_quarter` and
`fiscal_year` cells are all non-null (source line 95-99).  Rows are cell
positions; every column is filtered over the same positions. -/
def filterNotnullRows (f : Frame) : Frame :=
  let keep : Nat → Bool := fun i =>
    (match f.getCol EVENT_DATE_FIELD_NAME with
      | some c => ((c.get? i).map Val.notnull).getD false
      | none => false) &&
    (match f.getCol FISCAL_QUARTER_FIELD_NAME with
      | some c => ((c.get? i).map Val.notnull).getD false
      | none => false) &&
    (match f.getCol FISCAL_YEAR_FIELD_NAME with
      | some c => ((c.get? i).map Val.notnull).getD false
      | none => false)
  ⟨f.cols.map (fun p =>
    (p.1, (p.2.enum.filter (fun iv => keep iv.1)).map (·.2)))⟩

/-- Loader state after `QuarterEstimatesLoader.__init__`: the filtered
estimates table and the base column-name map. -/
structure Loader where
  estimates : Frame
  base_column_name_map : List (String × String)
deriving DecidableEq, Repr

/-- `QuarterEstimatesLoader.__init__` (source line 87-101): validate the
column specs, then store the rows with non-null event date / fiscal
quarter / fiscal year. -/
def Loader.make (estimates : Frame)
    (base_column_name_map : List (String × String)) :
    Except LoaderError Loader := do
  _ ← validate_column_specs (estimates.cols.map (·.1)) base_column_name_map
  .ok ⟨filterNotnullRows estimates, base_column_name_map⟩

/-- One row of the stacked snapshot table `stacked_last_per_qtr`: the
index levels (simulation date, normalized quarter, sid) together with the
row's last-known event date (`None` models NaT). -/
structure StackedRow where
  date : Int
  qtr : Int
  sid : Int
  event_date : Option Int
deriving DecidableEq, Repr

/-- Ascending order on event dates for `.sort(EVENT_DATE_FIELD_NAME)`;
a null event date sorts last (pandas `na_position='last'`). -/
def edLEopt : Option Int → Option Int → Prop
  | _, none => True
  | none, some _ => False
  | some a, some b => a ≤ b

instance : DecidableRel edLEopt := fun a b => by
  cases a <;> cases b <;> simp [edLEopt] <;> infer_instance

/-- Row order used by the selectors' sort on the event-date column. -/
def edLE (a b : StackedRow) : Prop := edLEopt a.event_date b.event_date

instance : DecidableRel edLE := fun a b => by
  unfold edLE; infer_instance

instance : IsTotal StackedRow edLE := by
  constructor
  intro a b
  cases ha : a.event_date <;> cases hb : b.event_date <;>
    simp [edLE, edLEopt, ha, hb]
  exact Int.le_total _ _

instance : IsTrans StackedRow edLE := by
  constructor
  intro a b c hab hbc
  cases ha : a.event_date <;> cases hb : b.event_date <;>
      cases hc : c.event_date <;>
    simp_all [edLE, edLEopt]
  omega

/-- Two stacked rows share a (simulation date, sid) group key. -/
def keyEq (a b : StackedRow) : Prop := a.date = b.date ∧ a.sid = b.sid

instance : DecidableRel keyEq := fun a b => by
  unfold keyEq; infer_instance

/-- `groupby(level=[SIMULTATION_DATES, SID_FIELD_NAME]).nth(0)`: the first
row of each (date, sid) group, in frame order.  `seen` accumulates the
group keys already taken. -/
def firstPerKeyAux (seen : List (Int × Int)) : List StackedRow → List StackedRow
  | [] => []
  | r :: rest =>
    if (r.date, r.sid) ∈ seen then firstPerKeyAux seen rest
    else r :: firstPerKeyAux ((r.date, r.sid) :: seen) rest

/-- `groupby(level=[SIMULTATION_DATES, SID_FIELD_NAME]).nth(-1)`: the last
row of each (date, sid) group, in frame order. -/
def lastPerKey : List StackedRow → List StackedRow
  | [] => []
  | r :: rest =>
    if rest.any (fun x => keyEq x r) then lastPerKey rest
    else r :: lastPerKey rest

/-- The Next-variant filter `event_date >= simulation date`
(false on a NaT event date, as in pandas). -/
def edOnOrAfter (r : StackedRow) : Bool :=
  match r.event_date with
  | some v => r.date ≤ v
  | none => false

/-- The Previous-variant filter `event_date <= simulation date`. -/
def edOnOrBefore (r : StackedRow) : Bool :=
  match r.event_date with
  | some v => v ≤ r.date
  | none => false

/-- Lexicographic order on the (simulation date, sid) group key: pandas
`groupby(sort=True)` returns one row per group with the group keys in
ascending order. -/
def keyLE (a b : StackedRow) : Prop :=
  a.date < b.date ∨ (a.date = b.date ∧ a.sid ≤ b.sid)

instance : DecidableRel keyLE := fun a b => by
  unfold keyLE; infer_instance

/-- One row of the selector output `next_releases_per_date` /
`previous_releases_per_date` after `set_index`: the new index levels
(simulation date, shifted normalized quarter, sid) plus the row's
event-date column. -/
structure SelRow where
  date : Int
  shifted : Int
  sid : Int
  event_date : Option Int
deriving DecidableEq, Repr

/-- `NextQuartersEstimatesLoader.load_quarters` (source line 280-302):
sort the stacked table by event date, keep the releases on or after each
simulation date, take the first row of each (date, sid) group, and reindex
it under shifted quarter = its normalized quarter + (num_quarters - 1). -/
def loadQuartersNext (num_quarters : Int) (stacked : List StackedRow) :
    List SelRow :=
  let sorted := List.insertionSort edLE stacked
  let next_releases := (sorted.filter edOnOrAfter)
  (List.insertionSort keyLE (firstPerKeyAux [] next_releases)).map (fun r =>
    ⟨r.date, r.qtr + (num_quarters - 1), r.sid, r.event_date⟩)

/-- `PreviousQuartersEstimatesLoader.load_quarters` (source line 312-334):
sort by event date, keep the releases on or before each simulation date,
take the last row of each (date, sid) group, shift its quarter by
`-(num_quarters - 1)`, and return `stacked_last_per_qtr.loc[...]` at the
shifted index — the row looked up at (date, shifted quarter, sid) in the
original stacked table (a missing label yields a null event date). -/
def loadQuartersPrev (num_quarters : Int) (stacked : List StackedRow) :
    List SelRow :=
  let sorted := List.insertionSort edLE stacked
  let previous_releases := (sorted.filter edOnOrBefore)
  (List.insertionSort keyLE (lastPerKey previous_releases)).map (fun r =>
    let shifted := r.qtr - (num_quarters - 1)
    ⟨r.date, shifted, r.sid,
      (stacked.find? (fun x =>
        x.date = r.date ∧ x.qtr = shifted ∧ x.sid = r.sid)).bind
        (·.event_date)⟩)

/-- `last_per_qtr`, the wide snapshot table: indexed by the sorted
simulation dates, with one column per (column name, normalized quarter,
sid) triple holding that column's last-known value on each date. -/
structure LastPerQtr where
  dates : List Int
  cols : List ((String × Int × Int) × List Val)
deriving DecidableEq, Repr

/-- `last[column_name, quarter, sid]` as a list of per-date cells
(empty when the column is absent). -/
def lastLookup (last : LastPerQtr) (name : String) (qtr sid : Int) :
    List Val :=
  ((last.cols.find? (fun p => p.1 = (name, qtr, sid))).map (·.2)).getD []

/-- `last.xs(sid, axis=1, level=SID_FIELD_NAME).groupby(axis=1, level=1)
.first().columns.values` (source line 153-155): the normalized quarters
for which this sid has any column in the snapshot table. -/
def quartersWithEstimatesForSid (last : LastPerQtr) (sid : Int) : List Int :=
  ((last.cols.filter (fun p => p.1.2.2 = sid)).map (fun p => p.1.2.1)).dedup

/-- `last.index.searchsorted(v, side='right')` on the sorted date index:
the number of dates `<= v`, which is the insertion point to the right of
any run of equal dates. -/
def searchsortedRight (dates : List Int) (v : Int) : Nat :=
  dates.countP (fun d => d ≤ v)

/-- `searchsorted` fed the event date from the frame: a NaT event date
compares below every date, so the insertion point is 0 (the source
comments: "A starting index of 0 means that the next quarter's event date
was NaT"). -/
def searchsortedRightOpt (dates : List Int) : Option Int → Nat
  | none => 0
  | some v => searchsortedRight dates v

/-- One row of `requested_qtr_data` as `get_adjustments` reads it: index
levels (simulation date, sid) and the `shifted_normalized_quarters`
column. -/
structure ResultRow where
  date : Int
  sid : Int
  shiftedQtr : Int
deriving DecidableEq, Repr

/-- `result.index.get_loc(row_indexer)`: the position of the (date, sid)
label in `result` (the labels are unique, one requested row per
(date, sid)). -/
def getLoc (result : List ResultRow) (d s : Int) : Nat :=
  result.findIdx (fun x => x.date = d ∧ x.sid = s)

/-- `subsequent_qtr_data.iloc[result.index.get_loc(row_indexer)]
[EVENT_DATE_FIELD_NAME]` (source line 169-171): `subsequent_qtr_data` is
positionally aligned with `result`, and we read its event-date column at
the boundary row's position. -/
def eventDateAt (subsequent : List (Option Int)) (result : List ResultRow)
    (r : ResultRow) : Option Int :=
  ((subsequent.get? (getLoc result r.date r.sid)).getD none)

/-- `sid_result[sid_result[SHIFTED_NORMALIZED_QTRS] !=
sid_result[SHIFTED_NORMALIZED_QTRS].shift(1)]` (source line 147-150): the
rows whose shifted quarter differs from the prior row's.  The first row is
always kept (`shift(1)` is NaN there). -/
def qtrShiftsAux (prev : ResultRow) : List ResultRow → List ResultRow
  | [] => []
  | r :: rest =>
    (if r.shiftedQtr ≠ prev.shiftedQtr then [r] else []) ++ qtrShiftsAux r rest

/-- Quarter-change boundary rows of one sid's requested data. -/
def qtrShifts : List ResultRow → List ResultRow
  | [] => []
  | r :: rest => r :: qtrShiftsAux r rest

/-- A `Datetime641DArrayOverwrite` / `Float641DArrayOverwrite` instance:
`overwrite(first_row, last_row, first_col, last_col, values)`. -/
structure Overwrite where
  kind : Dtype
  first_row : Nat
  last_row : Nat
  first_col : Nat
  last_col : Nat
  values : List Val
deriving DecidableEq, Repr

/-- The adjustments dict, keyed by trigger row. -/
abbrev AdjList := List (Nat × List Overwrite)

/-- `adjustments[k] = v` on a Python dict: replaces any existing entry at
the key and otherwise adds one. -/
def dictSet (adj : AdjList) (k : Nat) (v : List Overwrite) : AdjList :=
  (List.filter (fun p => p.1 ≠ k) adj) ++ [(k, v)]

/-- `adjustments[k]` lookup. -/
def dictGet (adj : AdjList) (k : Nat) : Option (List Overwrite) :=
  (List.find? (fun p => p.1 = k) adj).map (·.2)

/-- The missing value chosen at the top of `get_adjustments` (source line
136-141): `pd.NaT` for a datetime column, `np.NaN` otherwise. -/
def missingValue : Dtype → Val
  | .datetime64ns => .NaT
  | .float64 => .NaN

/-- `QuarterEstimatesLoader.overwrite_with_missing_value` (source line
107-124): store at `qtr_start_idx` the single overwrite of rows
`[0, qtr_start_idx - 1]` of column `sid_idx` with the missing value
repeated `len(last.index[:qtr_start_idx])` times. -/
def overwrite_with_missing_value (missing_value : Val) (last : LastPerQtr)
    (qtr_start_idx : Nat) (adjustments : AdjList) (sid_idx : Nat)
    (overwriteKind : Dtype) : AdjList :=
  dictSet adjustments qtr_start_idx
    [⟨overwriteKind, 0, qtr_start_idx - 1, sid_idx, sid_idx,
      List.replicate (last.dates.take qtr_start_idx).length missing_value⟩]

/-- The body of the inner loop of `get_adjustments` (source line 157-203)
for one boundary row `r` of sid `sid` at position `sid_idx`:
`requested_quarter = shifted + 1`, `qtr_start_idx` by right-biased
searchsorted of the boundary row's event date; if the requested quarter
has estimates for the sid and `0 < qtr_start_idx < len(last.index)`,
store the overwrite with that quarter's column truncated to
`[:qtr_start_idx]`; else if `0 < qtr_start_idx < len(last.index)`,
store the missing-value overwrite; otherwise leave the dict unchanged. -/
def qtr_start_idx (result : List ResultRow) (subsequent : List (Option Int))
    (last : LastPerQtr) (r : ResultRow) : Nat :=
  searchsortedRightOpt last.dates (eventDateAt subsequent result r)

/-- The body of the inner loop of `get_adjustments` for one boundary row
(see the `qtr_start_idx` computation above, source line 157-203). -/
def processBoundary (result : List ResultRow) (subsequent : List (Option Int))
    (last : LastPerQtr) (column_name : String) (dtype : Dtype)
    (sid_idx : Nat) (sid : Int) (adjustments : AdjList) (r : ResultRow) :
    AdjList :=
  let requested_quarter := r.shiftedQtr + 1
  let qtr_start_idx := qtr_start_idx result subsequent last r
  if requested_quarter ∈ quartersWithEstimatesForSid last sid ∧
      0 < qtr_start_idx ∧ qtr_start_idx < last.dates.length then
    dictSet adjustments qtr_start_idx
      [⟨dtype, 0, qtr_start_idx - 1, sid_idx, sid_idx,
        (lastLookup last column_name requested_quarter sid).take qtr_start_idx⟩]
  else if 0 < qtr_start_idx ∧ qtr_start_idx < last.dates.length then
    overwrite_with_missing_value (missingValue dtype) last qtr_start_idx
      adjustments sid_idx dtype
  else
    adjustments

/-- The outer loop body of `get_adjustments` for one sid: iterate the
boundary rows of that sid's slice of `result`. -/
def processSid (result : List ResultRow) (subsequent : List (Option Int))
    (last : LastPerQtr) (column_name : String) (dtype : Dtype)
    (adjustments : AdjList) (sidPair : Nat × Int) : AdjList :=
  (qtrShifts (result.filter (fun x => x.sid = sidPair.2))).foldl
    (processBoundary result subsequent last column_name dtype
      sidPair.1 sidPair.2) adjustments

/-- The adjustments dict built by `QuarterEstimatesLoader.get_adjustments`
(source line 126-204): `for sid_idx, sid in enumerate(assets)`, then the
per-boundary loop. -/
def get_adjustments_map (result : List ResultRow)
    (subsequent : List (Option Int)) (last : LastPerQtr)
    (column_name : String) (dtype : Dtype) (assets : List Int) : AdjList :=
  (assets.enum).foldl (processSid result subsequent last column_name dtype) []

/-- The `AdjustedArray` value returned by `get_adjustments` (source line
205-210). -/
structure AdjustedArray where
  data : List (List Val)
  mask : List (List Bool)
  adjustments : AdjList
  missing_value : Val
deriving DecidableEq

/-- `QuarterEstimatesLoader.get_adjustments`: build the adjustments dict
and wrap the baseline matrix, mask and missing value into an
`AdjustedArray`. -/
def get_adjustments (result : List ResultRow)
    (subsequent : List (Option Int)) (col_result : List (List Val))
    (last : LastPerQtr) (column_name : String) (dtype : Dtype)
    (column_missing : Val) (mask : List (List Bool)) (assets : List Int) :
    AdjustedArray :=
  ⟨col_result, mask,
    get_adjustments_map result subsequent last column_name dtype assets,
    column_missing⟩

/-- The Next / Previous loader subclasses, as a closed enumeration. -/
inductive Variant where
  | next : Variant
  | prev : Variant
deriving DecidableEq, Repr

/-- `self.load_quarters` dispatch. -/
def loadQuarters : Variant → Int → List StackedRow → List SelRow
  | .next => loadQuartersNext
  | .prev => loadQuartersPrev

/-- One validated estimate event, read off a row of the stored estimates
frame once the normalized-quarters column has been computed. -/
structure Event where
  ts : Int
  sid : Int
  event_date : Int
  normQ : Int
  vals : List (String × Val)
deriving DecidableEq, Repr

/-- Read the rows of the estimates frame as events.  Rows whose timestamp,
sid, event date or normalized quarter cell is null are unusable for
grouping and are skipped (construction already dropped null event dates /
fiscal periods). -/
def toEvents (est : Frame) : List Event :=
  let ts := (est.getCol TS_FIELD_NAME).getD []
  let sids := (est.getCol SID_FIELD_NAME).getD []
  let eds := (est.getCol EVENT_DATE_FIELD_NAME).getD []
  let nqs := (est.getCol NORMALIZED_QUARTERS).getD []
  (List.range sids.length).filterMap (fun i =>
    match ts.get? i, sids.get? i, eds.get? i, nqs.get? i with
    | some (.num t), some (.num s), some (.num e), some (.num q) =>
      some ⟨t, s, e, q, est.cols.map (fun p => (p.1, (p.2.get? i).getD .NaN))⟩
    | _, _, _, _ => none)

/-- Modelled from the spec (last_in_date_group, in
zipline.pipeline.loaders.utils, is not under src/): the event of a
(quarter, sid) pair last known as of date `d` — the qualifying event with
the latest knowledge timestamp `<= d`, ties broken in favour of the later
row of the table. -/
def lastEventAt (events : List Event) (q s d : Int) : Option Event :=
  (events.filter (fun e => e.normQ = q ∧ e.sid = s ∧ e.ts ≤ d)).foldl
    (fun acc e =>
      match acc with
      | none => some e
      | some a => if a.ts ≤ e.ts then some e else some a)
    none

/-- Value of a named field on an event (NaN when the column is absent). -/
def valueOf (e : Event) (name : String) : Val :=
  ((e.vals.find? (fun p => p.1 = name)).map (·.2)).getD .NaN

/-- Modelled from the spec (last_in_date_group composed with
ffill_across_cols, both in zipline.pipeline.loaders.utils, outside src/):
the snapshot cell of column `name` for (quarter, sid) on date `d` holds
the value carried by the last event known as of `d`; with no such event
the cell is absent (NaT for the event-date column, NaN otherwise). -/
def cellFor (events : List Event) (name : String) (q s d : Int) : Val :=
  match lastEventAt events q s d with
  | some e => if name = EVENT_DATE_FIELD_NAME then .num e.event_date
              else valueOf e name
  | none => if name = EVENT_DATE_FIELD_NAME then .NaT else .NaN

/-- Modelled from the spec: `last_in_date_group(estimates, True, dates,
assets, extra_groupers=[NORMALIZED_QUARTERS])` followed by
`ffill_across_cols` — the wide snapshot table with one column per
(column name, quarter, sid) and one row per simulation date. -/
def lastInDateGroup (events : List Event) (dates : List Int)
    (assets : List Int) (names : List String) : LastPerQtr :=
  let evs := events.filter (fun e => e.sid ∈ assets)
  let pairs := (evs.map (fun e => (e.normQ, e.sid))).dedup
  ⟨dates,
    names.foldr (fun name acc =>
      pairs.map (fun qs =>
        ((name, qs.1, qs.2), dates.map (fun d => cellFor evs name qs.1 qs.2 d)))
        ++ acc) []⟩

/-- Modelled from the spec: `last_per_qtr.stack([NORMALIZED_QUARTERS,
SID_FIELD_NAME])` — one row per (date, quarter, sid) whose snapshot cell
is populated; fully absent combinations are dropped by `stack`. -/
def stackLast (events : List Event) (dates : List Int) (assets : List Int) :
    List StackedRow :=
  let evs := events.filter (fun e => e.sid ∈ assets)
  let pairs := (evs.map (fun e => (e.normQ, e.sid))).dedup
  dates.foldr (fun d acc =>
    (pairs.filterMap (fun qs =>
      (lastEventAt evs qs.1 qs.2 d).map (fun e =>
        (⟨d, qs.1, qs.2, some e.event_date⟩ : StackedRow)))) ++ acc) []

/-- A requested column: its resolved physical column name (the source
resolves `c` through `base_column_name_map[getattr(c.dataset.__base__,
c.name)]`), the dataset's `num_quarters` parameter, and the column's
dtype and missing value. -/
structure ColumnReq where
  name : String
  num_quarters : Int
  dtype : Dtype
  missing_value : Val
deriving DecidableEq, Repr

/-- The snapshot cell of column `name` for (quarter, sid) at date `d`,
read back out of the wide table. -/
def cellAt (last : LastPerQtr) (name : String) (q s : Int) (d : Int) : Val :=
  ((lastLookup last name q s).get? (last.dates.indexOf d)).getD .NaN

/-- The per-group body of `load_adjusted_array` (source line 224-274):
build the snapshot table, run the quarter selector, and hand each
requested column's baseline matrix to `get_adjustments`.  (The fiscal
year/quarter columns recomputed on `requested_qtr_data` via
`split_normalized_quarters` are not read by anything this embedding
returns and are not carried.) -/
def processGroup (variant : Variant) (est : Frame) (cols : List ColumnReq)
    (num_quarters : Int) (dates : List Int) (assets : List Int)
    (mask : List (List Bool)) : List (ColumnReq × AdjustedArray) :=
  let events := toEvents est
  let names := EVENT_DATE_FIELD_NAME :: cols.map (·.name)
  let last := lastInDateGroup events dates assets names
  let stacked := stackLast events dates assets
  let subsequent := loadQuarters variant num_quarters stacked
  if subsequent.isEmpty then []
  else
    let result := subsequent.map (fun s => (⟨s.date, s.sid, s.shifted⟩ : ResultRow))
    let subEDs := subsequent.map (·.event_date)
    cols.map (fun c =>
      let col_result := dates.map (fun d => assets.map (fun a =>
        match subsequent.find? (fun s => s.date = d ∧ s.sid = a) with
        | some s => cellAt last c.name s.shifted a d
        | none => Val.NaN))
      (c, get_adjustments result subEDs col_result last c.name c.dtype
        c.missing_value mask assets))

/-- `QuarterEstimatesLoader.load_adjusted_array` (source line 212-275):
group the requested columns by `num_quarters`, fail fast when any group
key is negative, store the normalized-quarters column on the estimates
table (`self.estimates[NORMALIZED_QUARTERS] = ...`), then process each
group.  The returned loader is the post-call state of `self`. -/
def load_adjusted_array (variant : Variant) (loader : Loader)
    (columns : List ColumnReq) (dates : List Int) (assets : List Int)
    (mask : List (List Bool)) :
    Except LoaderError (Loader × List (ColumnReq × AdjustedArray)) :=
  let keys := (columns.map (·.num_quarters)).dedup
  if keys.any (fun k => k < 0) then
    .error (.invalidParameter "Must pass a number of quarters >= 0")
  else
    let est := loader.estimates
    let est' := est.setCol NORMALIZED_QUARTERS
      (List.zipWith valNormalizeQuarters
        ((est.getCol FISCAL_YEAR_FIELD_NAME).getD [])
        ((est.getCol FISCAL_QUARTER_FIELD_NAME).getD []))
    let out := keys.foldl (fun acc nq =>
      acc ++ processGroup variant est'
        (columns.filter (fun c => c.num_quarters = nq)) nq dates assets mask)
      []
    .ok (⟨est', loader.base_column_name_map⟩, out)

-- Concrete fixtures used by witnesses and counterexamples.

/-- A two-event estimates frame for one asset: Q1/2020 (value 10, known at
time 1, event date 2) and Q2/2020 (value 12, known at time 5, event date
10). -/
def exFrame : Frame :=
  ⟨[(TS_FIELD_NAME, [.num 1, .num 5]),
    (SID_FIELD_NAME, [.num 7, .num 7]),
    (EVENT_DATE_FIELD_NAME, [.num 2, .num 10]),
    (FISCAL_QUARTER_FIELD_NAME, [.num 1, .num 2]),
    (FISCAL_YEAR_FIELD_NAME, [.num 2020, .num 2020]),
    ("estimate", [.num 10, .num 12])]⟩

/-- The loader state holding `exFrame`. -/
def exLoader : Loader := ⟨exFrame, [("estimate", "estimate")]⟩

/-- A requested column over the `estimate` field, `num_quarters = 1`. -/
def exCol : ColumnReq := ⟨"estimate", 1, .float64, .NaN⟩

/-- A requested column with a negative `num_quarters`. -/
def exColNeg : ColumnReq := ⟨"estimate", -1, .float64, .NaN⟩

/-- A loader state whose estimates table has no `normalized_quarters`
column (and is even missing most metadata columns). -/
def exLoaderBare : Loader :=
  ⟨⟨[(FISCAL_YEAR_FIELD_NAME, [.num 2020]),
     (FISCAL_QUARTER_FIELD_NAME, [.num 1])]⟩, []⟩

/-- Requested rows for asset 7 with two quarter-change boundaries
(shifted quarter 10 at date 0, 11 at date 2). -/
def exResultAdj : List ResultRow := [⟨0, 7, 10⟩, ⟨2, 7, 11⟩]

/-- Event dates of the selected reference rows, aligned with
`exResultAdj`. -/
def exSubseqAdj : List (Option Int) := [some 0, some 1]

/-- Snapshot table with quarters 11 and 12 disclosed for asset 7 over
four simulation dates. -/
def exLastAdj : LastPerQtr :=
  ⟨[0, 1, 2, 3],
   [(("estimate", 11, 7), [.num 1, .num 1, .num 1, .num 1]),
    (("estimate", 12, 7), [.num 2, .num 2, .num 2, .num 2])]⟩

/-- Snapshot table where only quarter 11 is disclosed for asset 7. -/
def exLastMissing : LastPerQtr :=
  ⟨[0, 1, 2, 3], [(("estimate", 11, 7), [.num 1, .num 1, .num 1, .num 1])]⟩

/-- Requested rows for two assets whose boundaries trigger at the same
row. -/
def exResultColl : List ResultRow := [⟨0, 7, 10⟩, ⟨0, 8, 10⟩]

/-- Event dates aligned with `exResultColl`. -/
def exSubseqColl : List (Option Int) := [some 0, some 0]

/-- Snapshot table with quarter 11 disclosed for both assets 7 and 8. -/
def exLastColl : LastPerQtr :=
  ⟨[0, 1],
   [(("estimate", 11, 7), [.num 1, .num 1]),
    (("estimate", 11, 8), [.num 3, .num 3])]⟩

/-- Stacked snapshot rows for one (date, sid) pair holding two quarters
whose event dates tie, the higher quarter first in table order. -/
def exStackedTie : List StackedRow := [⟨0, 9, 1, some 0⟩, ⟨0, 5, 1, some 0⟩]

/-- Stacked snapshot rows with two past releases for one (date, sid)
pair: quarter 8 released at 2 and quarter 9 released at 4, both on or
before the simulation date 5. -/
def exStackedPrev : List StackedRow := [⟨5, 8, 1, some 2⟩, ⟨5, 9, 1, some 4⟩]

/-- Well-formedness invariant maintained on the adjustments dict by
`get_adjustments`: every stored list is a singleton, and every stored
overwrite targets a single asset column and covers exactly the rows
`[0, key - 1]`. -/
def AdjWF (adj : AdjList) : Prop :=
  ∀ p ∈ adj, p.2.length = 1 ∧ ∀ o ∈ p.2,
    o.first_row = 0 ∧ o.last_row = p.1 - 1 ∧ o.first_col = o.last_col

/-
Theorems.
-/

/-- `find?` over the column list rewritten by an in-place `setCol` is
unchanged for any other column name. -/
theorem find_map_setcol (name other : String) (vals : List Val)
    (h : other ≠ name) (l : List (String × List Val)) :
    List.find? (fun p => p.1 = other)
        (l.map (fun p => if p.1 = name then (name, vals) else p)) =
      List.find? (fun p => p.1 = other) l := by
  induction l with
  | nil => rfl
  | cons p rest ih =>
    by_cases hp : p.1 = name
    · simp [List.find?_cons, hp, Ne.symm h, ih]
    · by_cases hq : p.1 = other <;> simp [List.find?_cons, hp, hq, h, ih]

/-- `find?` over the column list extended by an appended `setCol` is
unchanged for any other column name. -/
theorem find_append_setcol (name other : String) (vals : List Val)
    (h : other ≠ name) (l : List (String × List Val)) :
    List.find? (fun p => p.1 = other) (l ++ [(name, vals)]) =
      List.find? (fun p => p.1 = other) l := by
  induction l with
  | nil => simp [List.find?, Ne.symm h]
  | cons p rest ih =>
    by_cases hq : p.1 = other <;> simp [List.find?_cons, hq, ih]

/-- Looking up a column other than the one `setCol` wrote is unchanged. -/
theorem Frame.getCol_setCol_ne (f : Frame) (name other : String)
    (vals : List Val) (h : other ≠ name) :
    (f.setCol name vals).getCol other = f.getCol other := by
  unfold Frame.setCol Frame.getCol
  by_cases hc : f.cols.any (fun p => p.1 = name) <;>
    simp only [hc, Bool.false_eq_true, if_true, if_false,
      find_map_setcol name other vals h, find_append_setcol name other vals h]

/-- C8: for every year and every quarter in {1, 2, 3, 4},
`split_normalized_quarters (normalize_quarters year quarter)` returns
`(year, quarter)`: the codec `year*4 + quarter - 1` and its inverse
`(q div 4, q mod 4 + 1)` round-trip on valid fiscal quarters. -/
theorem C8_quarter_codec_roundtrip (year quarter : Int)
    (h1 : 1 ≤ quarter) (h4 : quarter ≤ 4) :
    split_normalized_quarters (normalize_quarters year quarter)
      = (year, quarter) := by
  unfold split_normalized_quarters normalize_quarters
  rw [Int.fdiv_eq_ediv _ (by norm_num), Int.fmod_eq_emod _ (by norm_num)]
  simp only [Prod.mk.injEq]
  omega

/-- Witness for C8 at year 2020, quarter 3. -/
theorem C8_quarter_codec_roundtrip_witness :
    (1 ≤ (3 : Int) ∧ (3 : Int) ≤ 4) ∧
      split_normalized_quarters (normalize_quarters 2020 3) = (2020, 3) :=
  ⟨by decide, C8_quarter_codec_roundtrip 2020 3 (by decide) (by decide)⟩

/-- C6: loader construction with an event table lacking any required
column (the five metadata columns plus every physical name in the field
map) fails with the schema error whose message enumerates the missing and
the expected columns in sorted order, while construction with a table
containing all required columns does not raise.  The error carries exactly
the sorted missing list and the sorted required ("expected") list that the
source interpolates into its message; `sortStrings` sorts and permutes its
input. -/
theorem C6_schema_validation (f : Frame) (columns : List (String × String)) :
    ((∀ c ∈ required_estimates_fields columns, c ∈ f.cols.map (·.1)) →
      (Loader.make f columns).isOk = true)
    ∧ (∀ c0, c0 ∈ required_estimates_fields columns →
        c0 ∉ f.cols.map (·.1) →
        Loader.make f columns = .error (.schemaError
          (sortStrings (requiredMissing (f.cols.map (·.1)) columns))
          (sortStrings (f.cols.map (·.1)).dedup)
          (sortStrings (required_estimates_fields columns))))
    ∧ (∀ x, x ∈ requiredMissing (f.cols.map (·.1)) columns ↔
        (x ∈ required_estimates_fields columns ∧ x ∉ f.cols.map (·.1)))
    ∧ (∀ l : List String,
        (sortStrings l).Sorted (· ≤ ·) ∧ (sortStrings l).Perm l) := by
  refine ⟨?_, ?_, ?_, ?_⟩
  · intro hall
    have hnil : requiredMissing (f.cols.map (·.1)) columns = [] := by
      unfold requiredMissing
      rw [List.filter_eq_nil_iff]
      intro c hc
      simp only [List.mem_dedup, decide_not, Bool.not_eq_true',
        decide_eq_false_iff_not, not_not]
      exact hall c hc
    unfold Loader.make validate_column_specs
    rw [if_neg (by simp [hnil])]
    rfl
  · intro c0 hc0 hnot
    have hmem : c0 ∈ requiredMissing (f.cols.map (·.1)) columns := by
      unfold requiredMissing
      rw [List.mem_filter]
      refine ⟨hc0, ?_⟩
      simp only [List.mem_dedup, decide_not, Bool.not_eq_true',
        decide_eq_false_iff_not]
      exact hnot
    have hne : requiredMissing (f.cols.map (·.1)) columns ≠ [] := by
      intro hx; rw [hx] at hmem; exact List.not_mem_nil _ hmem
    unfold Loader.make validate_column_specs
    rw [if_pos hne]
    rfl
  · intro x
    unfold requiredMissing
    rw [List.mem_filter]
    simp [List.mem_dedup]
  · intro l
    exact ⟨List.sorted_insertionSort _ l, List.perm_insertionSort _ l⟩

/-- Witness for C6: `exFrame` has all required columns and constructs
successfully; dropping its `event_date` column makes construction fail
with the sorted schema error. -/
theorem C6_schema_validation_witness :
    (Loader.make exFrame [("estimate", "estimate")]).isOk = true ∧
      Loader.make (⟨[(TS_FIELD_NAME, [.num 1]), (SID_FIELD_NAME, [.num 7]),
          (FISCAL_QUARTER_FIELD_NAME, [.num 1]),
          (FISCAL_YEAR_FIELD_NAME, [.num 2020]),
          ("estimate", [.num 10])]⟩ : Frame) [("estimate", "estimate")] =
        .error (.schemaError [EVENT_DATE_FIELD_NAME]
          (sortStrings [TS_FIELD_NAME, SID_FIELD_NAME,
            FISCAL_QUARTER_FIELD_NAME, FISCAL_YEAR_FIELD_NAME, "estimate"])
          (sortStrings (required_estimates_fields
            [("estimate", "estimate")]))) := by
  constructor
  · exact (C6_schema_validation exFrame [("estimate", "estimate")]).1
      (by decide)
  · have h := (C6_schema_validation
      ⟨[(TS_FIELD_NAME, [.num 1]), (SID_FIELD_NAME, [.num 7]),
        (FISCAL_QUARTER_FIELD_NAME, [.num 1]),
        (FISCAL_YEAR_FIELD_NAME, [.num 2020]),
        ("estimate", [.num 10])]⟩ [("estimate", "estimate")]).2.1
      EVENT_DATE_FIELD_NAME (by decide) (by decide)
    rw [h]
    rfl

/-- C7: when any requested column carries a negative `num_quarters`, the
facade fails with the `ValueError` before touching the estimates table:
the error is returned for every loader state (even one whose event data
is arbitrarily malformed), and no output and no state change is
produced. -/
theorem C7_negative_num_quarters (variant : Variant) (loader : Loader)
    (columns : List ColumnReq) (dates : List Int) (assets : List Int)
    (mask : List (List Bool)) (c : ColumnReq) (hc : c ∈ columns)
    (hneg : c.num_quarters < 0) :
    load_adjusted_array variant loader columns dates assets mask =
      .error (.invalidParameter "Must pass a number of quarters >= 0") := by
  have hk : (columns.map (·.num_quarters)).dedup.any (fun k => k < 0)
      = true := by
    rw [List.any_eq_true]
    refine ⟨c.num_quarters, ?_, by simpa using hneg⟩
    rw [List.mem_dedup]
    exact List.mem_map_of_mem _ hc
  unfold load_adjusted_array
  simp [hk]

/-- Witness for C7: a negative-`num_quarters` request against the bare,
metadata-deficient loader state still returns exactly the parameter
error. -/
theorem C7_negative_num_quarters_witness :
    exColNeg ∈ [exColNeg] ∧ exColNeg.num_quarters < 0 ∧
      load_adjusted_array .next exLoaderBare [exColNeg] [1] [7] [] =
        .error (.invalidParameter "Must pass a number of quarters >= 0") :=
  ⟨by decide, by decide,
    C7_negative_num_quarters .next exLoaderBare [exColNeg] [1] [7] []
      exColNeg (by decide) (by decide)⟩

/-- C5 counterexample: a call to `load_adjusted_array` changes the stored
estimates table — starting from a table without a `normalized_quarters`
column, the post-call state has gained that column, so the table's set of
columns is not preserved. -/
theorem C5_counterexample :
    load_adjusted_array .next exLoaderBare [] [] [] [] =
      .ok (⟨⟨[(FISCAL_YEAR_FIELD_NAME, [.num 2020]),
              (FISCAL_QUARTER_FIELD_NAME, [.num 1]),
              (NORMALIZED_QUARTERS, [.num 8080])]⟩, []⟩, [])
    ∧ (⟨[(FISCAL_YEAR_FIELD_NAME, [.num 2020]),
         (FISCAL_QUARTER_FIELD_NAME, [.num 1]),
         (NORMALIZED_QUARTERS, [.num 8080])]⟩ : Frame)
        ≠ exLoaderBare.estimates := by
  constructor
  · rfl
  · decide

/-- C5 as amended: `load_adjusted_array` does mutate the stored estimates
table, but only by storing the derived `normalized_quarters` column
(recomputed from the fiscal-year and fiscal-quarter columns with
`normalize_quarters`); every other column keeps its identity and values,
and the base column-name map is unchanged. -/
theorem C5_estimates_mutation (variant : Variant) (loader : Loader)
    (columns : List ColumnReq) (dates : List Int) (assets : List Int)
    (mask : List (List Bool)) (st : Loader)
    (out : List (ColumnReq × AdjustedArray))
    (h : load_adjusted_array variant loader columns dates assets mask =
      .ok (st, out)) :
    st.estimates = loader.estimates.setCol NORMALIZED_QUARTERS
        (List.zipWith valNormalizeQuarters
          ((loader.estimates.getCol FISCAL_YEAR_FIELD_NAME).getD [])
          ((loader.estimates.getCol FISCAL_QUARTER_FIELD_NAME).getD []))
      ∧ st.base_column_name_map = loader.base_column_name_map
      ∧ ∀ name, name ≠ NORMALIZED_QUARTERS →
          st.estimates.getCol name = loader.estimates.getCol name := by
  unfold load_adjusted_array at h
  by_cases hk : (columns.map (·.num_quarters)).dedup.any (fun k => k < 0)
  · rw [if_pos hk] at h; exact absurd h (by simp)
  · rw [if_neg hk] at h
    simp only [Except.ok.injEq, Prod.mk.injEq] at h
    obtain ⟨hst, -⟩ := h
    rw [← hst]
    refine ⟨rfl, rfl, ?_⟩
    intro name hname
    exact Frame.getCol_setCol_ne _ _ _ _ hname

/-- Witness for C5's amended claim, at the bare loader state: the
post-call state keeps the old columns' values and only gains the derived
normalized-quarters column. -/
theorem C5_estimates_mutation_witness :
    (⟨⟨[(FISCAL_YEAR_FIELD_NAME, [.num 2020]),
        (FISCAL_QUARTER_FIELD_NAME, [.num 1]),
        (NORMALIZED_QUARTERS, [.num 8080])]⟩, []⟩ : Loader).estimates =
        exLoaderBare.estimates.setCol NORMALIZED_QUARTERS
          (List.zipWith valNormalizeQuarters
            ((exLoaderBare.estimates.getCol FISCAL_YEAR_FIELD_NAME).getD [])
            ((exLoaderBare.estimates.getCol FISCAL_QUARTER_FIELD_NAME).getD []))
      ∧ (⟨⟨[(FISCAL_YEAR_FIELD_NAME, [.num 2020]),
            (FISCAL_QUARTER_FIELD_NAME, [.num 1]),
            (NORMALIZED_QUARTERS, [.num 8080])]⟩, []⟩ : Loader).base_column_name_map
          = exLoaderBare.base_column_name_map
      ∧ ∀ name, name ≠ NORMALIZED_QUARTERS →
          (⟨⟨[(FISCAL_YEAR_FIELD_NAME, [.num 2020]),
              (FISCAL_QUARTER_FIELD_NAME, [.num 1]),
              (NORMALIZED_QUARTERS, [.num 8080])]⟩, []⟩ : Loader).estimates.getCol name
            = exLoaderBare.estimates.getCol name :=
  C5_estimates_mutation .next exLoaderBare [] [] [] []
    ⟨⟨[(FISCAL_YEAR_FIELD_NAME, [.num 2020]),
       (FISCAL_QUARTER_FIELD_NAME, [.num 1]),
       (NORMALIZED_QUARTERS, [.num 8080])]⟩, []⟩ [] rfl

/-- `find?` over a dict assignment, at the assigned key. -/
theorem find_dictSet_self (k : Nat) (v : List Overwrite) (adj : AdjList) :
    List.find? (fun p => p.1 = k)
        (List.filter (fun p => p.1 ≠ k) adj ++ [(k, v)]) = some (k, v) := by
  induction adj with
  | nil =>
    simp only [List.filter_nil, List.nil_append]
    exact List.find?_cons_of_pos _ (by simp)
  | cons p rest ih =>
    by_cases hp : p.1 = k
    · rw [List.filter_cons_of_neg (by simp [hp])]
      exact ih
    · rw [List.filter_cons_of_pos (by simp [hp]), List.cons_append,
        List.find?_cons_of_neg _ (by simp [hp])]
      exact ih

/-- `find?` over a dict assignment, at any other key. -/
theorem find_dictSet_ne (k k' : Nat) (v : List Overwrite) (h : k' ≠ k)
    (adj : AdjList) :
    List.find? (fun p => p.1 = k')
        (List.filter (fun p => p.1 ≠ k) adj ++ [(k, v)]) =
      List.find? (fun p => p.1 = k') adj := by
  induction adj with
  | nil =>
    simp only [List.filter_nil, List.nil_append, List.find?_nil]
    rw [List.find?_cons_of_neg _ (by simp [Ne.symm h]), List.find?_nil]
  | cons p rest ih =>
    by_cases hp : p.1 = k
    · rw [List.filter_cons_of_neg (by simp [hp]),
        List.find?_cons_of_neg _ (by simp [hp, Ne.symm h])]
      exact ih
    · rw [List.filter_cons_of_pos (by simp [hp]), List.cons_append]
      by_cases hq : p.1 = k'
      · rw [List.find?_cons_of_pos _ (by simp [hq]),
          List.find?_cons_of_pos _ (by simp [hq])]
      · rw [List.find?_cons_of_neg _ (by simp [hq]),
          List.find?_cons_of_neg _ (by simp [hq])]
        exact ih

/-- Dict assignment stores its value at its key. -/
theorem dictGet_dictSet_self (adj : AdjList) (k : Nat) (v : List Overwrite) :
    dictGet (dictSet adj k v) k = some v := by
  unfold dictGet dictSet
  rw [find_dictSet_self]
  rfl

/-- Dict assignment leaves every other key unchanged. -/
theorem dictGet_dictSet_ne (adj : AdjList) (k k' : Nat) (v : List Overwrite)
    (h : k' ≠ k) :
    dictGet (dictSet adj k v) k' = dictGet adj k' := by
  unfold dictGet dictSet
  rw [find_dictSet_ne k k' v h]

/-- A successful dict lookup exposes a member of the association list. -/
theorem mem_of_dictGet (adj : AdjList) (k : Nat) (l : List Overwrite)
    (h : dictGet adj k = some l) : (k, l) ∈ adj := by
  unfold dictGet at h
  induction adj with
  | nil => simp [List.find?_nil] at h
  | cons p rest ih =>
    by_cases hp : p.1 = k
    · rw [List.find?_cons_of_pos _ (by simp [hp])] at h
      have hl : p.2 = l := by simpa using h
      have hpk : p = (k, l) := by
        obtain ⟨a, b⟩ := p
        simp only at hp hl
        rw [hp, hl]
      rw [hpk]
      exact List.mem_cons_self _ _
    · rw [List.find?_cons_of_neg _ (by simp [hp])] at h
      exact List.mem_cons_of_mem _ (ih h)

/-- Dict assignment of a well-formed singleton preserves `AdjWF`. -/
theorem adjWF_dictSet (adj : AdjList) (k : Nat) (v : List Overwrite)
    (hadj : AdjWF adj)
    (hv : v.length = 1 ∧ ∀ o ∈ v,
      o.first_row = 0 ∧ o.last_row = k - 1 ∧ o.first_col = o.last_col) :
    AdjWF (dictSet adj k v) := by
  intro p hp
  unfold dictSet at hp
  rw [List.mem_append] at hp
  cases hp with
  | inl h => exact hadj p (List.mem_of_mem_filter h)
  | inr h =>
    have : p = (k, v) := by simpa using h
    rw [this]
    exact hv

/-- Each boundary step of `get_adjustments` preserves `AdjWF`: both
branches assign a one-element list whose overwrite has `first_row = 0`,
`last_row = key - 1` and a single asset column. -/
theorem adjWF_processBoundary (result : List ResultRow)
    (subsequent : List (Option Int)) (last : LastPerQtr)
    (column_name : String) (dtype : Dtype) (sid_idx : Nat) (sid : Int)
    (adj : AdjList) (r : ResultRow) (hadj : AdjWF adj) :
    AdjWF (processBoundary result subsequent last column_name dtype
      sid_idx sid adj r) := by
  unfold processBoundary
  dsimp only
  by_cases h1 : r.shiftedQtr + 1 ∈ quartersWithEstimatesForSid last sid ∧
      0 < qtr_start_idx result subsequent last r ∧
      qtr_start_idx result subsequent last r < last.dates.length
  · rw [if_pos h1]
    refine adjWF_dictSet adj _ _ hadj ⟨rfl, ?_⟩
    intro o ho
    have : o = ⟨dtype, 0, qtr_start_idx result subsequent last r - 1,
        sid_idx, sid_idx,
        (lastLookup last column_name (r.shiftedQtr + 1) sid).take
          (qtr_start_idx result subsequent last r)⟩ := by
      simpa using ho
    rw [this]
    exact ⟨rfl, rfl, rfl⟩
  · rw [if_neg h1]
    by_cases h2 : 0 < qtr_start_idx result subsequent last r ∧
        qtr_start_idx result subsequent last r < last.dates.length
    · rw [if_pos h2]
      unfold overwrite_with_missing_value
      refine adjWF_dictSet adj _ _ hadj ⟨rfl, ?_⟩
      intro o ho
      have : o = ⟨dtype, 0, qtr_start_idx result subsequent last r - 1,
          sid_idx, sid_idx,
          List.replicate
            (last.dates.take (qtr_start_idx result subsequent last r)).length
            (missingValue dtype)⟩ := by
        simpa using ho
      rw [this]
      exact ⟨rfl, rfl, rfl⟩
    · rw [if_neg h2]
      exact hadj

/-- Folding the boundary step over any row list preserves `AdjWF`. -/
theorem adjWF_foldl_boundaries (result : List ResultRow)
    (subsequent : List (Option Int)) (last : LastPerQtr)
    (column_name : String) (dtype : Dtype) (sid_idx : Nat) (sid : Int)
    (rows : List ResultRow) (adj : AdjList) (hadj : AdjWF adj) :
    AdjWF (rows.foldl (processBoundary result subsequent last column_name
      dtype sid_idx sid) adj) := by
  induction rows generalizing adj with
  | nil => exact hadj
  | cons r rest ih =>
    exact ih _ (adjWF_processBoundary result subsequent last column_name
      dtype sid_idx sid adj r hadj)

/-- The whole adjustments dict built by `get_adjustments` is
well-formed. -/
theorem adjWF_get_adjustments_map (result : List ResultRow)
    (subsequent : List (Option Int)) (last : LastPerQtr)
    (column_name : String) (dtype : Dtype) (assets : List Int) :
    AdjWF (get_adjustments_map result subsequent last column_name dtype
      assets) := by
  unfold get_adjustments_map
  have hgen : ∀ (ps : List (Nat × Int)) (adj : AdjList), AdjWF adj →
      AdjWF (ps.foldl (processSid result subsequent last column_name dtype)
        adj) := by
    intro ps
    induction ps with
    | nil => intro adj hadj; exact hadj
    | cons p rest ih =>
      intro adj hadj
      refine ih _ ?_
      unfold processSid
      exact adjWF_foldl_boundaries result subsequent last column_name dtype
        p.1 p.2 _ adj hadj
  exact hgen _ [] (by intro p hp; simp at hp)

/-- On a sorted date index, the right-biased insertion point (the count of
dates `<= v`) is the index of the first date strictly after `v` (the list
length when there is none). -/
theorem searchsorted_eq_findIdx (dates : List Int) (v : Int)
    (hs : dates.Sorted (· ≤ ·)) :
    searchsortedRight dates v = dates.findIdx (fun d => decide (v < d)) := by
  induction dates with
  | nil => rfl
  | cons d rest ih =>
    rw [List.sorted_cons] at hs
    obtain ⟨hhead, htail⟩ := hs
    unfold searchsortedRight at ih ⊢
    by_cases hv : v < d
    · have hz : rest.countP (fun x => decide (x ≤ v)) = 0 := by
        rw [List.countP_eq_zero]
        intro x hx
        have := hhead x hx
        simp only [decide_eq_true_eq]
        omega
      rw [List.countP_cons, List.findIdx_cons]
      have hd : (decide (d ≤ v)) = false := by simp only [decide_eq_false_iff_not]; omega
      have hvd : (decide (v < d)) = true := by simp only [decide_eq_true_eq]; omega
      rw [hd, hvd, hz]
      rfl
    · have hd : (decide (d ≤ v)) = true := by simp only [decide_eq_true_eq]; omega
      have hvd : (decide (v < d)) = false := by simp only [decide_eq_false_iff_not]; omega
      rw [List.countP_cons, List.findIdx_cons, hd, hvd, ih htail]
      rfl

/-- C1: at every quarter-change boundary row of an asset,
`get_adjustments` computes the boundary row as the right-biased insertion
point of the reference row's event date, which on the sorted date index is
the index of the first date strictly after that event date; when the
about-to-begin requested quarter (the row's shifted quarter plus one) has
disclosed data for the asset and the boundary row lies strictly inside the
date index, the step stores exactly one overwrite keyed at the boundary
row covering rows `[0, boundary_row - 1]` of that asset's column with the
requested quarter's column values truncated to that range, leaving every
other key unchanged; when the boundary row is 0 or at least the number of
dates, the step emits nothing. -/
theorem C1_boundary_overwrite (result : List ResultRow)
    (subsequent : List (Option Int)) (last : LastPerQtr)
    (column_name : String) (dtype : Dtype) (sid_idx : Nat) (sid : Int)
    (adj : AdjList) (r : ResultRow)
    (hboundary : r ∈ qtrShifts (result.filter (fun x => x.sid = sid)))
    (hsorted : last.dates.Sorted (· ≤ ·)) :
    (∀ v, eventDateAt subsequent result r = some v →
      qtr_start_idx result subsequent last r =
        last.dates.findIdx (fun d => decide (v < d)))
    ∧ (r.shiftedQtr + 1 ∈ quartersWithEstimatesForSid last sid →
        0 < qtr_start_idx result subsequent last r →
        qtr_start_idx result subsequent last r < last.dates.length →
        dictGet (processBoundary result subsequent last column_name dtype
            sid_idx sid adj r) (qtr_start_idx result subsequent last r) =
          some [⟨dtype, 0, qtr_start_idx result subsequent last r - 1,
            sid_idx, sid_idx,
            (lastLookup last column_name (r.shiftedQtr + 1) sid).take
              (qtr_start_idx result subsequent last r)⟩]
        ∧ ∀ k, k ≠ qtr_start_idx result subsequent last r →
            dictGet (processBoundary result subsequent last column_name dtype
              sid_idx sid adj r) k = dictGet adj k)
    ∧ ((qtr_start_idx result subsequent last r = 0 ∨
        last.dates.length ≤ qtr_start_idx result subsequent last r) →
        processBoundary result subsequent last column_name dtype sid_idx sid
          adj r = adj) := by
  refine ⟨?_, ?_, ?_⟩
  · intro v hv
    unfold qtr_start_idx searchsortedRightOpt
    rw [hv]
    exact searchsorted_eq_findIdx last.dates v hsorted
  · intro hq hpos hlt
    unfold processBoundary
    dsimp only
    rw [if_pos ⟨hq, hpos, hlt⟩]
    exact ⟨dictGet_dictSet_self _ _ _, fun k hk => dictGet_dictSet_ne _ _ _ _ hk⟩
  · intro hout
    unfold processBoundary
    dsimp only
    rw [if_neg (by intro hc; rcases hc with ⟨-, h2, h3⟩; omega),
      if_neg (by intro hc; rcases hc with ⟨h2, h3⟩; omega)]

/-- Witness for C1 at a concrete boundary: asset 7's boundary row at date
0 (shifted quarter 10, reference event date 0) has `qtr_start_idx = 1`
and stores the single overwrite of row 0 with quarter 11's first cell. -/
theorem C1_boundary_overwrite_witness :
    dictGet (processBoundary exResultAdj exSubseqAdj exLastAdj "estimate"
        .float64 0 7 [] ⟨0, 7, 10⟩) 1 =
      some [⟨.float64, 0, 0, 0, 0, [.num 1]⟩] := by
  have h := ((C1_boundary_overwrite exResultAdj exSubseqAdj exLastAdj
    "estimate" .float64 0 7 [] ⟨0, 7, 10⟩ (by decide)
    (by decide)).2.1 (by decide) (by decide) (by decide)).1
  exact h

/-- C2: at a boundary whose boundary row lies strictly inside the date
index but whose about-to-begin requested quarter has no disclosed data for
the asset, the step stores exactly one overwrite keyed at the boundary row
covering rows `[0, boundary_row - 1]` of that asset's column whose
replacement vector repeats the field's missing-value sentinel for every
row in range — the timestamp sentinel NaT for datetime-typed fields and
the floating-point sentinel NaN otherwise — leaving other keys
unchanged. -/
theorem C2_missing_quarter_overwrite (result : List ResultRow)
    (subsequent : List (Option Int)) (last : LastPerQtr)
    (column_name : String) (dtype : Dtype) (sid_idx : Nat) (sid : Int)
    (adj : AdjList) (r : ResultRow)
    (hboundary : r ∈ qtrShifts (result.filter (fun x => x.sid = sid)))
    (hmiss : r.shiftedQtr + 1 ∉ quartersWithEstimatesForSid last sid)
    (hpos : 0 < qtr_start_idx result subsequent last r)
    (hlt : qtr_start_idx result subsequent last r < last.dates.length) :
    dictGet (processBoundary result subsequent last column_name dtype
        sid_idx sid adj r) (qtr_start_idx result subsequent last r) =
      some [⟨dtype, 0, qtr_start_idx result subsequent last r - 1,
        sid_idx, sid_idx,
        List.replicate (qtr_start_idx result subsequent last r)
          (missingValue dtype)⟩]
    ∧ (∀ k, k ≠ qtr_start_idx result subsequent last r →
        dictGet (processBoundary result subsequent last column_name dtype
          sid_idx sid adj r) k = dictGet adj k)
    ∧ missingValue .datetime64ns = .NaT
    ∧ missingValue .float64 = .NaN := by
  have hrep : (last.dates.take (qtr_start_idx result subsequent last r)).length
      = qtr_start_idx result subsequent last r := by
    rw [List.length_take]
    omega
  unfold processBoundary
  dsimp only
  rw [if_neg (by intro hc; exact hmiss hc.1), if_pos ⟨hpos, hlt⟩]
  unfold overwrite_with_missing_value
  rw [hrep]
  exact ⟨dictGet_dictSet_self _ _ _,
    fun k hk => dictGet_dictSet_ne _ _ _ _ hk, rfl, rfl⟩

/-- Witness for C2 at a concrete boundary: asset 7's boundary row at date
2 requests quarter 12, which has no disclosed data in `exLastMissing`;
the step stores the NaN-filled overwrite of rows 0-1 at key 2. -/
theorem C2_missing_quarter_overwrite_witness :
    dictGet (processBoundary exResultAdj exSubseqAdj exLastMissing
        "estimate" .float64 0 7 [] ⟨2, 7, 11⟩) 2 =
      some [⟨.float64, 0, 1, 0, 0, [.NaN, .NaN]⟩] := by
  have h := (C2_missing_quarter_overwrite exResultAdj exSubseqAdj
    exLastMissing "estimate" .float64 0 7 [] ⟨2, 7, 11⟩ (by decide)
    (by decide) (by decide) (by decide)).1
  exact h

/-- C9 counterexample: asset 7 produces overwrites at the two distinct
trigger rows 1 and 2, and their row ranges `[0, 0]` and `[0, 1]` overlap
(both contain row 0) — they are not disjoint. -/
theorem C9_counterexample :
    dictGet (get_adjustments_map exResultAdj exSubseqAdj exLastAdj
        "estimate" .float64 [7]) 1 =
      some [⟨.float64, 0, 0, 0, 0, [.num 1]⟩]
    ∧ dictGet (get_adjustments_map exResultAdj exSubseqAdj exLastAdj
        "estimate" .float64 [7]) 2 =
      some [⟨.float64, 0, 1, 0, 0, [.num 2, .num 2]⟩]
    ∧ (1 : Nat) ≠ 2
    ∧ (⟨.float64, 0, 0, 0, 0, [.num 1]⟩ : Overwrite).first_col =
        (⟨.float64, 0, 1, 0, 0, [.num 2, .num 2]⟩ : Overwrite).first_col
    ∧ (⟨.float64, 0, 0, 0, 0, [.num 1]⟩ : Overwrite).first_row ≤
        (⟨.float64, 0, 1, 0, 0, [.num 2, .num 2]⟩ : Overwrite).last_row
    ∧ (⟨.float64, 0, 1, 0, 0, [.num 2, .num 2]⟩ : Overwrite).first_row ≤
        (⟨.float64, 0, 0, 0, 0, [.num 1]⟩ : Overwrite).last_row := by
  refine ⟨by rfl, by rfl, by decide, by decide, by decide, by decide⟩

/-- C9 as amended: instructions stored at different trigger rows for the
same asset cover nested row ranges rather than disjoint ones — every
stored overwrite covers exactly `[0, key - 1]` of a single asset column,
so the smaller-keyed range is contained in the larger-keyed one. -/
theorem C9_ranges_nested (result : List ResultRow)
    (subsequent : List (Option Int)) (last : LastPerQtr)
    (column_name : String) (dtype : Dtype) (assets : List Int)
    (k1 k2 : Nat) (l1 l2 : List Overwrite) (o1 o2 : Overwrite)
    (h1 : dictGet (get_adjustments_map result subsequent last column_name
      dtype assets) k1 = some l1)
    (h2 : dictGet (get_adjustments_map result subsequent last column_name
      dtype assets) k2 = some l2)
    (ho1 : o1 ∈ l1) (ho2 : o2 ∈ l2) (hk : k1 ≤ k2) :
    o1.first_row = 0 ∧ o2.first_row = 0 ∧ o1.last_row = k1 - 1 ∧
      o2.last_row = k2 - 1 ∧ o1.last_row ≤ o2.last_row := by
  have hwf := adjWF_get_adjustments_map result subsequent last column_name
    dtype assets
  have w1 := (hwf _ (mem_of_dictGet _ _ _ h1)).2 o1 ho1
  have w2 := (hwf _ (mem_of_dictGet _ _ _ h2)).2 o2 ho2
  refine ⟨w1.1, w2.1, w1.2.1, w2.2.1, ?_⟩
  rw [w1.2.1, w2.2.1]
  omega

/-- Witness for C9's amended claim at the concrete two-boundary run: the
ranges `[0, 0]` (key 1) and `[0, 1]` (key 2) are nested. -/
theorem C9_ranges_nested_witness :
    (⟨.float64, 0, 0, 0, 0, [.num 1]⟩ : Overwrite).first_row = 0 ∧
    (⟨.float64, 0, 1, 0, 0, [.num 2, .num 2]⟩ : Overwrite).first_row = 0 ∧
    (⟨.float64, 0, 0, 0, 0, [.num 1]⟩ : Overwrite).last_row = 1 - 1 ∧
    (⟨.float64, 0, 1, 0, 0, [.num 2, .num 2]⟩ : Overwrite).last_row = 2 - 1 ∧
    (⟨.float64, 0, 0, 0, 0, [.num 1]⟩ : Overwrite).last_row ≤
      (⟨.float64, 0, 1, 0, 0, [.num 2, .num 2]⟩ : Overwrite).last_row :=
  C9_ranges_nested exResultAdj exSubseqAdj exLastAdj "estimate" .float64 [7]
    1 2 _ _ _ _ (by rfl) (by rfl) (by decide) (by decide) (by decide)

/-- C10: in the adjustment dict returned by `get_adjustments`, every
trigger-row key maps to a list of exactly one overwrite instruction, and
dict assignment replaces any instruction previously stored at the same
key rather than appending alongside it. -/
theorem C10_singleton_per_key (result : List ResultRow)
    (subsequent : List (Option Int)) (last : LastPerQtr)
    (column_name : String) (dtype : Dtype) (assets : List Int) :
    (∀ k l, dictGet (get_adjustments_map result subsequent last column_name
        dtype assets) k = some l → l.length = 1)
    ∧ ∀ (adj : AdjList) (k : Nat) (v : List Overwrite),
        dictGet (dictSet adj k v) k = some v := by
  constructor
  · intro k l h
    exact ((adjWF_get_adjustments_map result subsequent last column_name
      dtype assets) _ (mem_of_dictGet _ _ _ h)).1
  · exact dictGet_dictSet_self

/-- Witness for C10: two assets trigger at the same row 1; the final dict
holds exactly the one instruction emitted later (for the second asset,
column 1), the earlier one having been replaced. -/
theorem C10_singleton_per_key_witness :
    dictGet (get_adjustments_map exResultColl exSubseqColl exLastColl
        "estimate" .float64 [7, 8]) 1 =
      some [⟨.float64, 0, 0, 1, 1, [.num 3]⟩]
    ∧ ([⟨.float64, 0, 0, 1, 1, [.num 3]⟩] : List Overwrite).length = 1 :=
  ⟨by rfl,
    (C10_singleton_per_key exResultColl exSubseqColl exLastColl "estimate"
      .float64 [7, 8]).1 1 _ (by rfl)⟩

/-- `edLE` is reflexive. -/
theorem edLE_refl (r : StackedRow) : edLE r r := by
  unfold edLE
  cases h : r.event_date <;> simp [edLEopt]

/-- `keyEq` is symmetric. -/
theorem keyEq_symm (a b : StackedRow) (h : keyEq a b) : keyEq b a :=
  ⟨h.1.symm, h.2.symm⟩

/-- `keyEq` is transitive. -/
theorem keyEq_trans (a b c : StackedRow) (h1 : keyEq a b) (h2 : keyEq b c) :
    keyEq a c :=
  ⟨h1.1.trans h2.1, h1.2.trans h2.2⟩

/-- Every row picked by `groupby.nth(0)` comes from the frame, with a
group key not among those already taken. -/
theorem mem_firstPerKeyAux (seen : List (Int × Int)) (l : List StackedRow)
    (x : StackedRow) (hx : x ∈ firstPerKeyAux seen l) :
    x ∈ l ∧ (x.date, x.sid) ∉ seen := by
  induction l generalizing seen with
  | nil => simp [firstPerKeyAux] at hx
  | cons r rest ih =>
    unfold firstPerKeyAux at hx
    by_cases hr : (r.date, r.sid) ∈ seen
    · rw [if_pos hr] at hx
      obtain ⟨h1, h2⟩ := ih seen hx
      exact ⟨List.mem_cons_of_mem _ h1, h2⟩
    · rw [if_neg hr] at hx
      rcases List.mem_cons.mp hx with h | h
      · rw [h]
        exact ⟨List.mem_cons_self _ _, hr⟩
      · obtain ⟨h1, h2⟩ := ih _ h
        exact ⟨List.mem_cons_of_mem _ h1,
          fun hc => h2 (List.mem_cons_of_mem _ hc)⟩

/-- `groupby.nth(0)` covers every group key appearing in the frame that
is not already taken. -/
theorem coverage_firstPerKeyAux (seen : List (Int × Int))
    (l : List StackedRow) (r : StackedRow) (hr : r ∈ l)
    (hseen : (r.date, r.sid) ∉ seen) :
    ∃ x ∈ firstPerKeyAux seen l, x.date = r.date ∧ x.sid = r.sid := by
  induction l generalizing seen with
  | nil => simp at hr
  | cons a rest ih =>
    unfold firstPerKeyAux
    by_cases ha : (a.date, a.sid) ∈ seen
    · rw [if_pos ha]
      rcases List.mem_cons.mp hr with h | h
      · exact absurd (by rw [h]; exact ha) hseen
      · exact ih seen h hseen
    · rw [if_neg ha]
      by_cases hk : (r.date, r.sid) = (a.date, a.sid)
      · refine ⟨a, List.mem_cons_self _ _, ?_, ?_⟩
        · exact (congrArg Prod.fst hk).symm
        · exact (congrArg Prod.snd hk).symm
      · rcases List.mem_cons.mp hr with h | h
        · exact absurd (by rw [h]) hk
        · obtain ⟨x, hx1, hx2⟩ := ih ((a.date, a.sid) :: seen) h (by
            intro hc
            rcases List.mem_cons.mp hc with hc1 | hc2
            · exact hk hc1
            · exact hseen hc2)
          exact ⟨x, List.mem_cons_of_mem _ hx1, hx2⟩

/-- A row picked by `groupby.nth(0)` is the first row of the frame with
its group key. -/
theorem find_firstPerKeyAux (seen : List (Int × Int)) (l : List StackedRow)
    (x : StackedRow) (hx : x ∈ firstPerKeyAux seen l) :
    l.find? (fun y => y.date = x.date ∧ y.sid = x.sid) = some x := by
  induction l generalizing seen with
  | nil => simp [firstPerKeyAux] at hx
  | cons a rest ih =>
    unfold firstPerKeyAux at hx
    by_cases ha : (a.date, a.sid) ∈ seen
    · rw [if_pos ha] at hx
      have hxs := (mem_firstPerKeyAux seen rest x hx).2
      have hne : ¬ (a.date = x.date ∧ a.sid = x.sid) := by
        intro hc
        exact hxs (by rw [← hc.1, ← hc.2]; exact ha)
      rw [List.find?_cons_of_neg _ (by simpa using hne)]
      exact ih seen hx
    · rw [if_neg ha] at hx
      rcases List.mem_cons.mp hx with h | h
      · rw [h]
        exact List.find?_cons_of_pos _ (by simp)
      · have hxs := (mem_firstPerKeyAux _ rest x h).2
        have hne : ¬ (a.date = x.date ∧ a.sid = x.sid) := by
          intro hc
          exact hxs (by rw [← hc.1, ← hc.2]; exact List.mem_cons_self _ _)
        rw [List.find?_cons_of_neg _ (by simpa using hne)]
        exact ih _ h

/-- The first match of a predicate in a pairwise-ordered list is below
every later match. -/
theorem find_min_of_pairwise {R : StackedRow → StackedRow → Prop}
    (p : StackedRow → Bool) (l : List StackedRow) (m : StackedRow)
    (hp : l.Pairwise R) (hf : l.find? p = some m) :
    ∀ x ∈ l, p x = true → m = x ∨ R m x := by
  induction l with
  | nil => simp at hf
  | cons a rest ih =>
    rw [List.pairwise_cons] at hp
    obtain ⟨ha, hrest⟩ := hp
    by_cases hpa : p a = true
    · rw [List.find?_cons_of_pos _ hpa] at hf
      have hma : m = a := by injection hf with h; exact h.symm
      intro x hx _
      rcases List.mem_cons.mp hx with h | h
      · left; rw [hma, h]
      · right; rw [hma]; exact ha x h
    · rw [List.find?_cons_of_neg _ (by simpa using hpa)] at hf
      intro x hx hpx
      rcases List.mem_cons.mp hx with h | h
      · rw [h] at hpx; exact absurd hpx hpa
      · exact ih hrest hf x h hpx

/-- Every row picked by `groupby.nth(-1)` comes from the frame. -/
theorem mem_lastPerKey (l : List StackedRow) (x : StackedRow)
    (hx : x ∈ lastPerKey l) : x ∈ l := by
  induction l with
  | nil => simp [lastPerKey] at hx
  | cons a rest ih =>
    unfold lastPerKey at hx
    by_cases ha : rest.any (fun y => keyEq y a)
    · rw [if_pos ha] at hx
      exact List.mem_cons_of_mem _ (ih hx)
    · rw [if_neg ha] at hx
      rcases List.mem_cons.mp hx with h | h
      · rw [h]; exact List.mem_cons_self _ _
      · exact List.mem_cons_of_mem _ (ih h)

/-- `groupby.nth(-1)` covers every group key appearing in the frame. -/
theorem coverage_lastPerKey (l : List StackedRow) :
    ∀ r ∈ l, ∃ x ∈ lastPerKey l, keyEq x r := by
  induction l with
  | nil => intro r hr; simp at hr
  | cons a rest ih =>
    intro r hr
    unfold lastPerKey
    by_cases ha : rest.any (fun y => keyEq y a)
    · rw [if_pos ha]
      rcases List.mem_cons.mp hr with h | h
      · obtain ⟨y, hy, hky⟩ := List.any_eq_true.mp ha
        obtain ⟨x, hx1, hx2⟩ := ih y hy
        refine ⟨x, hx1, ?_⟩
        rw [h]
        exact keyEq_trans x y a hx2 (of_decide_eq_true hky)
      · exact ih r h
    · rw [if_neg ha]
      rcases List.mem_cons.mp hr with h | h
      · exact ⟨a, List.mem_cons_self _ _, by rw [h]; exact ⟨rfl, rfl⟩⟩
      · obtain ⟨x, hx1, hx2⟩ := ih r h
        exact ⟨x, List.mem_cons_of_mem _ hx1, hx2⟩

/-- In an event-date-ordered frame, the row picked by `groupby.nth(-1)`
bounds every row of its group from above. -/
theorem max_lastPerKey (l : List StackedRow) (hp : l.Pairwise edLE) :
    ∀ x ∈ lastPerKey l, ∀ y ∈ l, keyEq y x → edLE y x := by
  induction l with
  | nil => intro x hx; simp [lastPerKey] at hx
  | cons a rest ih =>
    rw [List.pairwise_cons] at hp
    obtain ⟨ha, hrest⟩ := hp
    intro x hx y hy hk
    unfold lastPerKey at hx
    by_cases hany : rest.any (fun z => keyEq z a)
    · rw [if_pos hany] at hx
      rcases List.mem_cons.mp hy with h | h
      · rw [h]; exact ha x (mem_lastPerKey rest x hx)
      · exact ih hrest x hx y h hk
    · rw [if_neg hany] at hx
      rcases List.mem_cons.mp hx with hxa | hxr
      · rcases List.mem_cons.mp hy with h | h
        · rw [h, hxa]; exact edLE_refl a
        · refine absurd (List.any_eq_true.mpr ⟨y, h, ?_⟩) hany
          rw [← hxa]
          exact decide_eq_true hk
      · rcases List.mem_cons.mp hy with h | h
        · refine absurd (List.any_eq_true.mpr
            ⟨x, mem_lastPerKey rest x hxr, ?_⟩) hany
          refine decide_eq_true (keyEq_symm a x ?_)
          rw [← h]
          exact hk
        · exact ih hrest x hxr y h hk

/-- C3 counterexample: the Next selector does not break event-date ties
by taking the lower normalized quarter.  With quarters 9 and 5 tied on
event date 0 for the same (date, asset), the selector returns quarter 9
(the first row in table order), not the lower quarter 5. -/
theorem C3_counterexample :
    loadQuartersNext 1 exStackedTie = [⟨0, 9, 1, some 0⟩]
      ∧ (9 : Int) ≠ 5 := by
  exact ⟨by rfl, by decide⟩

/-- C3 as amended: for every (date, asset) pair the Next selector
considers exactly the rows whose event date is on or after the simulation
date, and picks a reference with the smallest event date among them
(which tied row wins is determined by the table's row order, not by
quarter value); the output row's shifted quarter is the reference quarter
plus `num_quarters - 1` and it carries the reference's event date; pairs
with no qualifying row produce no output row. -/
theorem C3_next_selector (num_quarters : Int) (stacked : List StackedRow)
    (d s : Int) :
    ((∃ out ∈ loadQuartersNext num_quarters stacked,
        out.date = d ∧ out.sid = s) ↔
      ∃ r ∈ stacked, r.date = d ∧ r.sid = s ∧ edOnOrAfter r = true)
    ∧ (∀ out ∈ loadQuartersNext num_quarters stacked, out.date = d →
        out.sid = s →
        ∃ r ∈ stacked, r.date = d ∧ r.sid = s ∧ edOnOrAfter r = true ∧
          out.shifted = r.qtr + (num_quarters - 1) ∧
          out.event_date = r.event_date ∧
          ∀ x ∈ stacked, x.date = d → x.sid = s → edOnOrAfter x = true →
            edLE r x) := by
  have hqual_pair :
      ((List.insertionSort edLE stacked).filter edOnOrAfter).Pairwise edLE :=
    List.Pairwise.filter _ (List.sorted_insertionSort edLE stacked)
  constructor
  · constructor
    · rintro ⟨out, hout, hd, hs⟩
      unfold loadQuartersNext at hout
      dsimp only at hout
      rw [List.mem_map] at hout
      obtain ⟨rr, hrr, rfl⟩ := hout
      have hrr1 : rr ∈ firstPerKeyAux []
          ((List.insertionSort edLE stacked).filter edOnOrAfter) :=
        (List.perm_insertionSort keyLE _).mem_iff.mp hrr
      have hrr2 := (mem_firstPerKeyAux [] _ rr hrr1).1
      rw [List.mem_filter] at hrr2
      exact ⟨rr, (List.perm_insertionSort edLE stacked).mem_iff.mp hrr2.1,
        hd, hs, hrr2.2⟩
    · rintro ⟨r, hr, hd, hs, hq⟩
      have hsorted : r ∈ List.insertionSort edLE stacked :=
        (List.perm_insertionSort edLE stacked).mem_iff.mpr hr
      have hqual : r ∈ (List.insertionSort edLE stacked).filter edOnOrAfter :=
        List.mem_filter.mpr ⟨hsorted, hq⟩
      obtain ⟨x, hx1, hx2, hx3⟩ :=
        coverage_firstPerKeyAux [] _ r hqual (by simp)
      refine ⟨⟨x.date, x.qtr + (num_quarters - 1), x.sid, x.event_date⟩,
        ?_, ?_, ?_⟩
      · unfold loadQuartersNext
        dsimp only
        rw [List.mem_map]
        exact ⟨x, (List.perm_insertionSort keyLE _).mem_iff.mpr hx1, rfl⟩
      · rw [hx2, hd]
      · rw [hx3, hs]
  · intro out hout hd hs
    unfold loadQuartersNext at hout
    dsimp only at hout
    rw [List.mem_map] at hout
    obtain ⟨rr, hrr, rfl⟩ := hout
    have hrr1 : rr ∈ firstPerKeyAux []
        ((List.insertionSort edLE stacked).filter edOnOrAfter) :=
      (List.perm_insertionSort keyLE _).mem_iff.mp hrr
    have hrr2 := (mem_firstPerKeyAux [] _ rr hrr1).1
    have hfind := find_firstPerKeyAux [] _ rr hrr1
    rw [List.mem_filter] at hrr2
    refine ⟨rr, (List.perm_insertionSort edLE stacked).mem_iff.mp hrr2.1,
      hd, hs, hrr2.2, rfl, rfl, ?_⟩
    intro x hx hxd hxs hxq
    have hxqual : x ∈ (List.insertionSort edLE stacked).filter edOnOrAfter :=
      List.mem_filter.mpr
        ⟨(List.perm_insertionSort edLE stacked).mem_iff.mpr hx, hxq⟩
    have hpx : (fun y => decide (y.date = rr.date ∧ y.sid = rr.sid)) x
        = true := by
      refine decide_eq_true ⟨?_, ?_⟩
      · rw [hxd, ← hd]
      · rw [hxs, ← hs]
    rcases find_min_of_pairwise _ _ rr hqual_pair hfind x hxqual hpx with
      h | h
    · rw [← h]; exact edLE_refl rr
    · exact h

/-- Witness for C3's amended claim at the tie fixture: the returned row
for (date 0, asset 1) comes from a qualifying snapshot row with minimal
event date. -/
theorem C3_next_selector_witness :
    ∃ r ∈ exStackedTie, r.date = 0 ∧ r.sid = 1 ∧ edOnOrAfter r = true ∧
      (⟨0, 9, 1, some 0⟩ : SelRow).shifted = r.qtr + (1 - 1) ∧
      (⟨0, 9, 1, some 0⟩ : SelRow).event_date = r.event_date ∧
      ∀ x ∈ exStackedTie, x.date = 0 → x.sid = 1 → edOnOrAfter x = true →
        edLE r x :=
  (C3_next_selector 1 exStackedTie 0 1).2 ⟨0, 9, 1, some 0⟩
    (by rw [C3_counterexample.1]; exact List.mem_cons_self _ _) rfl rfl

/-- C4: for every (date, asset) pair the Previous selector considers
exactly the rows whose event date is on or before the simulation date and
picks a reference with the largest event date among them; the output
row's shifted quarter is the reference quarter minus `num_quarters - 1`;
pairs with no qualifying row produce no output row. -/
theorem C4_previous_selector (num_quarters : Int)
    (stacked : List StackedRow) (d s : Int) :
    ((∃ out ∈ loadQuartersPrev num_quarters stacked,
        out.date = d ∧ out.sid = s) ↔
      ∃ r ∈ stacked, r.date = d ∧ r.sid = s ∧ edOnOrBefore r = true)
    ∧ (∀ out ∈ loadQuartersPrev num_quarters stacked, out.date = d →
        out.sid = s →
        ∃ r ∈ stacked, r.date = d ∧ r.sid = s ∧ edOnOrBefore r = true ∧
          out.shifted = r.qtr - (num_quarters - 1) ∧
          ∀ x ∈ stacked, x.date = d → x.sid = s → edOnOrBefore x = true →
            edLE x r) := by
  have hqual_pair :
      ((List.insertionSort edLE stacked).filter edOnOrBefore).Pairwise edLE :=
    List.Pairwise.filter _ (List.sorted_insertionSort edLE stacked)
  constructor
  · constructor
    · rintro ⟨out, hout, hd, hs⟩
      unfold loadQuartersPrev at hout
      dsimp only at hout
      rw [List.mem_map] at hout
      obtain ⟨rr, hrr, rfl⟩ := hout
      have hrr1 : rr ∈ lastPerKey
          ((List.insertionSort edLE stacked).filter edOnOrBefore) :=
        (List.perm_insertionSort keyLE _).mem_iff.mp hrr
      have hrr2 := mem_lastPerKey _ rr hrr1
      rw [List.mem_filter] at hrr2
      exact ⟨rr, (List.perm_insertionSort edLE stacked).mem_iff.mp hrr2.1,
        hd, hs, hrr2.2⟩
    · rintro ⟨r, hr, hd, hs, hq⟩
      have hsorted : r ∈ List.insertionSort edLE stacked :=
        (List.perm_insertionSort edLE stacked).mem_iff.mpr hr
      have hqual : r ∈ (List.insertionSort edLE stacked).filter edOnOrBefore :=
        List.mem_filter.mpr ⟨hsorted, hq⟩
      obtain ⟨x, hx1, hx2⟩ := coverage_lastPerKey _ r hqual
      refine ⟨⟨x.date, x.qtr - (num_quarters - 1), x.sid,
        (stacked.find? (fun y => y.date = x.date ∧
          y.qtr = x.qtr - (num_quarters - 1) ∧ y.sid = x.sid)).bind
          (·.event_date)⟩, ?_, ?_, ?_⟩
      · unfold loadQuartersPrev
        dsimp only
        rw [List.mem_map]
        exact ⟨x, (List.perm_insertionSort keyLE _).mem_iff.mpr hx1, rfl⟩
      · rw [hx2.1, hd]
      · rw [hx2.2, hs]
  · intro out hout hd hs
    unfold loadQuartersPrev at hout
    dsimp only at hout
    rw [List.mem_map] at hout
    obtain ⟨rr, hrr, rfl⟩ := hout
    have hrr1 : rr ∈ lastPerKey
        ((List.insertionSort edLE stacked).filter edOnOrBefore) :=
      (List.perm_insertionSort keyLE _).mem_iff.mp hrr
    have hrr2 := mem_lastPerKey _ rr hrr1
    rw [List.mem_filter] at hrr2
    refine ⟨rr, (List.perm_insertionSort edLE stacked).mem_iff.mp hrr2.1,
      hd, hs, hrr2.2, rfl, ?_⟩
    intro x hx hxd hxs hxq
    have hxqual : x ∈ (List.insertionSort edLE stacked).filter edOnOrBefore :=
      List.mem_filter.mpr
        ⟨(List.perm_insertionSort edLE stacked).mem_iff.mpr hx, hxq⟩
    refine max_lastPerKey _ hqual_pair rr hrr1 x hxqual ⟨?_, ?_⟩
    · rw [hxd, ← hd]
    · rw [hxs, ← hs]

/-- Witness for C4 at the two-past-releases fixture: the returned row for
(date 5, asset 1) comes from a qualifying row with maximal event date
(quarter 9, event date 4). -/
theorem C4_previous_selector_witness :
    ∃ r ∈ exStackedPrev, r.date = 5 ∧ r.sid = 1 ∧ edOnOrBefore r = true ∧
      (⟨5, 9, 1, some 4⟩ : SelRow).shifted = r.qtr - (1 - 1) ∧
      ∀ x ∈ exStackedPrev, x.date = 5 → x.sid = 1 →
        edOnOrBefore x = true → edLE x r :=
  (C4_previous_selector 1 exStackedPrev 5 1).2 ⟨5, 9, 1, some 4⟩
    (by decide) rfl rfl

end QuarterEstimates

